import Mathlib

/-!
Verification of the PyMacroRecorder core (label codec, Recorder, Player,
HotkeyManager, blocking chord capture) against its natural-language
specification.  The Python modules `utils.py`, `recorder.py`, `player.py`
and `hotkeys.py` are shallowly embedded below; wall-clock timestamps are
modelled exactly over the rationals, Python strings over `String`
(character lists), and Python `set` over `Finset String`.
-/

namespace PyMacroRecorder

/-! ## Python string primitives

Python string operations used by `utils.py`, modelled on the underlying
character lists.  The builtins `int(str)` and `str.lower` consult the
platform's Unicode tables (decimal-digit values, whitespace, full case
mappings), which are external to this repository, exactly like the
`keyboard.Key` name table; the codec therefore takes them as explicit
parameters `int_parse : String → Option Int` (where `none` models the
`ValueError` raised on an unparseable string) and
`str_lower : String → String`, and every theorem about the codec
quantifies over them.  The `sample_` functions below are concrete
instantiations used only in witnesses and counterexamples, at inputs
where they agree with the Python builtins. -/

/-- Sample instantiation of the external integer parser `int_parse` for
the concrete witnesses and counterexamples below: unsigned ASCII decimal
digits.  It agrees with Python `int()` at every string it is applied to
in this file. -/
def sample_int_parse (s : String) : Option Int :=
  if s.data ≠ [] ∧ s.data.all Char.isDigit then
    some (s.data.foldl (fun a c => 10 * a + ((c.toNat : Int) - 48)) 0)
  else none

/-- Sample instantiation of the external lowercasing function `str_lower`
for the concrete witnesses and counterexamples below: ASCII-range
lowering.  It agrees with Python `str.lower` at every string it is
applied to in this file. -/
def sample_lower (s : String) : String :=
  ⟨s.data.map (fun c => if 'A' ≤ c ∧ c ≤ 'Z' then Char.ofNat (c.toNat + 32) else c)⟩

/-- Models Python `s.startswith("<")`: the first character is `<`. -/
def headIsLt (s : String) : Bool :=
  s.data.head? = some '<'

/-- Models Python `s.endswith(">")`: the last character is `>`. -/
def lastIsGt (s : String) : Bool :=
  s.data.getLast? = some '>'

/-- Models `label.startswith("<") and label.endswith(">")`. -/
def isBracketed (s : String) : Bool :=
  headIsLt s && lastIsGt s

/-- Models Python `label[1:-1]`. -/
def innerStr (s : String) : String :=
  ⟨(s.data.drop 1).dropLast⟩

/-- Models `inner.startswith("vk_")`. -/
def startsVk (s : String) : Bool :=
  match s.data with
  | 'v' :: 'k' :: '_' :: _ => true
  | _ => false

/-- Character-list worker for `stripVk`: removes each non-overlapping
occurrence of `vk_`, scanning left to right. -/
def stripVkChars : List Char → List Char
  | 'v' :: 'k' :: '_' :: rest => stripVkChars rest
  | c :: rest => c :: stripVkChars rest
  | [] => []

/-- Models Python `s.replace("vk_", "")` (all occurrences removed). -/
def stripVk (s : String) : String :=
  ⟨stripVkChars s.data⟩

/-! ## utils.py — label codec -/

/-- Embeds `utils.normalize_label`: bracket-wrapped virtual-key tokens
whose code (per the external `int_parse`) lies in the ASCII digit or
uppercase-letter ranges are remapped to the character they denote, other
bracket tokens are lowercased inside the brackets (except that a `vk_`
token whose code fails to parse is returned verbatim by the
`except ValueError: return label` branch), single characters are
lowercased, and anything else is returned unchanged. -/
def normalize_label (int_parse : String → Option Int) (str_lower : String → String)
    (label : String) : String :=
  if isBracketed label then
    let inner := innerStr label
    if startsVk inner then
      match int_parse (stripVk inner) with
      | none => label
      | some vk =>
        if 0x30 ≤ vk ∧ vk ≤ 0x39 then ⟨[Char.ofNat vk.toNat]⟩
        else if 0x41 ≤ vk ∧ vk ≤ 0x5A then ⟨[Char.ofNat (vk.toNat + 32)]⟩
        else ⟨'<' :: (str_lower inner).data ++ ['>']⟩
    else ⟨'<' :: (str_lower inner).data ++ ['>']⟩
  else if label.data.length = 1 then str_lower label
  else label

/-- Embeds `utils.normalize_combo`. -/
def normalize_combo (int_parse : String → Option Int) (str_lower : String → String)
    (combo : List String) : List String :=
  combo.map (normalize_label int_parse str_lower)

/-- Embeds `utils.format_combo`: models `"+".join(combo)`. -/
def format_combo (combo : List String) : String :=
  String.intercalate "+" combo

/-- Splits a character list on `+`, as combo strings are split into
tokens. -/
def splitPlus : List Char → List (List Char)
  | [] => [[]]
  | '+' :: rest => [] :: splitPlus rest
  | c :: rest =>
    match splitPlus rest with
    | g :: gs => (c :: g) :: gs
    | [] => [[c]]

/-- Legality of one chord token per the chord grammar: either exactly one
character, or bracket-wrapped. -/
def legalToken (t : List Char) : Bool :=
  t.length = 1 || (t.head? = some '<' && t.getLast? = some '>')

/-- Modelled from the spec: `utils.is_parseable_hotkey` wraps the external
`pynput.keyboard.HotKey.parse`, which is not part of this repository; per
the spec a formatted chord string is legal iff it is non-empty and every
`+`-separated token is either bracket-wrapped or exactly one character. -/
def is_parseable_hotkey (combo_str : String) : Bool :=
  combo_str.data ≠ [] && (splitPlus combo_str.data).all legalToken

/-- Native pynput key values as observed through `KeyCode.from_char`,
`KeyCode.from_vk` and the `keyboard.Key` named-key table. -/
inductive PKey where
  | char (c : Char)
  | vk (n : Int)
  | named (name : String)
deriving DecidableEq, Repr

/-- Embeds `utils.str_to_key`.  The external `keyboard.Key` enum is
abstracted by the list `keyNames` of recognized key names and the builtin
`int()` by `int_parse`; the result `none` models an uncaught Python
exception (only the `IndexError` from `name[0]` on an empty bracketed
name is reachable). -/
def str_to_key (int_parse : String → Option Int) (keyNames : List String)
    (label : String) : Option PKey :=
  if label = "" then some (PKey.char ' ')
  else if isBracketed label then
    let name := innerStr label
    if startsVk name then
      match int_parse (stripVk name) with
      | some n => some (PKey.vk n)
      | none => some (PKey.char ' ')
    else if name ∈ keyNames then some (PKey.named name)
    else
      match name.data with
      | c :: _ => some (PKey.char c)
      | [] => none
  else if label.data.length = 1 then
    match label.data with
    | c :: _ => some (PKey.char c)
    | [] => none
  else
    match label.data with
    | c :: _ => some (PKey.char c)
    | [] => none

/-- Helper: a one-character string is never bracket-wrapped, since its
single character would have to be both `<` and `>`. -/
theorem length_one_not_bracketed (label : String) (h : label.data.length = 1) :
    isBracketed label = false := by
  obtain ⟨data⟩ := label
  match data, h with
  | [c], _ =>
    simp only [isBracketed, headIsLt, lastIsGt]
    by_cases hc : c = '<'
    · subst hc; simp
    · simp [hc]

/-- Helper: a bracket-wrapped label whose inner part (between the
brackets) is empty must be the two-character label consisting of the
brackets alone. -/
theorem bracketed_inner_empty (label : String) (hb : isBracketed label = true)
    (hi : (innerStr label).data = []) : label = ⟨['<', '>']⟩ := by
  obtain ⟨data⟩ := label
  simp only [isBracketed, headIsLt, lastIsGt, Bool.and_eq_true, decide_eq_true_eq] at hb
  obtain ⟨hhead, hlast⟩ := hb
  simp only [innerStr] at hi
  match data, hhead, hlast, hi with
  | c :: rest, hhead, hlast, hi =>
    simp only [List.head?_cons, Option.some.injEq] at hhead
    subst hhead
    simp only [List.drop_succ_cons, List.drop_zero] at hi
    match rest, hlast, hi with
    | [x], hlast, _ =>
      simp only [List.getLast?_cons_cons, List.getLast?_singleton, Option.some.injEq] at hlast
      subst hlast
      rfl

/-- Embeds `utils.combos_as_sets`: each combo list becomes a set. -/
def combos_as_sets (mapping : List (List String)) : List (Finset String) :=
  mapping.map List.toFinset

/-- Embeds `utils.pressed_matches_hotkey`: some hotkey set is a subset of
the pressed set. -/
def pressed_matches_hotkey (pressed : Finset String) (hotkeys : List (Finset String)) : Bool :=
  hotkeys.any (fun hk => decide (hk ⊆ pressed))

/-! ## Claim theorems for the label codec -/

/-- C7 (counterexample): the claim says every bracket-wrapped token other
than a digit- or uppercase-range virtual-key token passes through with its
inner name lowercased, but `normalize_label` returns a `vk_` token whose
code fails to parse verbatim: `<vk_ABC>` stays `<vk_ABC>` instead of
becoming `<vk_abc>` (Python: `int("ABC")` raises `ValueError` and
`"vk_ABC".lower()` is `"vk_abc"`, matching the sample tables here). -/
theorem normalize_label_claim_counterexample :
    isBracketed "<vk_ABC>" = true ∧
    startsVk (innerStr "<vk_ABC>") = true ∧
    sample_int_parse (stripVk (innerStr "<vk_ABC>")) = none ∧
    sample_lower (innerStr "<vk_ABC>") = "vk_abc" ∧
    normalize_label sample_int_parse sample_lower "<vk_ABC>" = "<vk_ABC>" ∧
    normalize_label sample_int_parse sample_lower "<vk_ABC>" ≠ "<vk_abc>" := by
  decide

/-- C7 (amended): for every platform integer-parse and lowercasing table,
`normalize_label` lowercases a single character, remaps bracket-wrapped
virtual-key tokens whose code is in the ASCII digit range to that digit
and in the uppercase-letter range to the corresponding lowercase letter,
returns a bracket-wrapped `vk_` token whose code fails to parse verbatim,
and passes every other bracket-wrapped token through with its inner name
lowercased. -/
theorem normalize_label_policy (int_parse : String → Option Int)
    (str_lower : String → String) (label : String) :
    (label.data.length = 1 →
      normalize_label int_parse str_lower label = str_lower label) ∧
    (isBracketed label = true →
      (startsVk (innerStr label) = true →
        (∀ vk : Int, int_parse (stripVk (innerStr label)) = some vk →
          ((0x30 ≤ vk ∧ vk ≤ 0x39) →
            normalize_label int_parse str_lower label = ⟨[Char.ofNat vk.toNat]⟩) ∧
          ((0x41 ≤ vk ∧ vk ≤ 0x5A) →
            normalize_label int_parse str_lower label = ⟨[Char.ofNat (vk.toNat + 32)]⟩) ∧
          (¬(0x30 ≤ vk ∧ vk ≤ 0x39) → ¬(0x41 ≤ vk ∧ vk ≤ 0x5A) →
            normalize_label int_parse str_lower label =
              ⟨'<' :: (str_lower (innerStr label)).data ++ ['>']⟩)) ∧
        (int_parse (stripVk (innerStr label)) = none →
          normalize_label int_parse str_lower label = label)) ∧
      (startsVk (innerStr label) = false →
        normalize_label int_parse str_lower label =
          ⟨'<' :: (str_lower (innerStr label)).data ++ ['>']⟩)) := by
  constructor
  · intro hlen
    have hb := length_one_not_bracketed label hlen
    simp [normalize_label, hb, hlen]
  · intro hb
    constructor
    · intro hvk
      constructor
      · intro vk hparse
        refine ⟨?_, ?_, ?_⟩
        · intro hrange
          simp [normalize_label, hb, hvk, hparse, hrange]
        · intro hrange
          have hnot : ¬(0x30 ≤ vk ∧ vk ≤ 0x39) := by omega
          simp [normalize_label, hb, hvk, hparse, hrange, hnot]
        · intro h1 h2
          simp [normalize_label, hb, hvk, hparse, h1, h2]
      · intro hparse
        simp [normalize_label, hb, hvk, hparse]
    · intro hvk
      simp [normalize_label, hb, hvk]

/-- C7 (witness for the amended theorem): the policy applied at concrete
labels using the sample platform tables, one label per case. -/
theorem normalize_label_policy_witness :
    normalize_label sample_int_parse sample_lower "A" = "a" ∧
    normalize_label sample_int_parse sample_lower "<vk_50>" = "2" ∧
    normalize_label sample_int_parse sample_lower "<vk_65>" = "a" ∧
    normalize_label sample_int_parse sample_lower "<vk_160>" = "<vk_160>" ∧
    normalize_label sample_int_parse sample_lower "<vk_x9>" = "<vk_x9>" ∧
    normalize_label sample_int_parse sample_lower "<CTRL>" = "<ctrl>" := by
  refine ⟨(normalize_label_policy sample_int_parse sample_lower "A").1 (by decide),
    ?_, ?_, ?_, ?_, ?_⟩
  · exact ((((normalize_label_policy sample_int_parse sample_lower "<vk_50>").2
      (by decide)).1 (by decide)).1 50 (by decide)).1 (by decide)
  · exact ((((normalize_label_policy sample_int_parse sample_lower "<vk_65>").2
      (by decide)).1 (by decide)).1 65 (by decide)).2.1 (by decide)
  · exact ((((normalize_label_policy sample_int_parse sample_lower "<vk_160>").2
      (by decide)).1 (by decide)).1 160 (by decide)).2.2 (by decide) (by decide)
  · exact (((normalize_label_policy sample_int_parse sample_lower "<vk_x9>").2
      (by decide)).1 (by decide)).2 (by decide)
  · exact ((normalize_label_policy sample_int_parse sample_lower "<CTRL>").2
      (by decide)).2 (by decide)

/-- C6 (counterexample): `str_to_key` does not return a key for every
label: on the label `<>` the unrecognized-name fallback indexes the first
character of an empty name, an uncaught `IndexError` (modelled by
`none`); the integer parser is never consulted on this path. -/
theorem str_to_key_claim_counterexample :
    str_to_key sample_int_parse ["ctrl", "alt", "shift", "enter", "space", "tab"]
      "<>" = none := by
  decide

/-- C6 (amended): for every platform integer-parse table and recognized
key-name table, and every label other than `<>`, `str_to_key` returns a
key without raising, following the fallback policy: empty label → space;
bracketed virtual-key token → key from that code, or space on parse
failure; bracketed name → the matching named key, or the first character
of the name when unrecognized; any other label → its first character
(which for a single character is itself). -/
theorem str_to_key_policy (int_parse : String → Option Int)
    (keyNames : List String) (label : String)
    (h : label ≠ ⟨['<', '>']⟩) :
    (str_to_key int_parse keyNames label).isSome = true ∧
    (label = "" → str_to_key int_parse keyNames label = some (PKey.char ' ')) ∧
    (isBracketed label = true →
      (startsVk (innerStr label) = true →
        (∀ n : Int, int_parse (stripVk (innerStr label)) = some n →
          str_to_key int_parse keyNames label = some (PKey.vk n)) ∧
        (int_parse (stripVk (innerStr label)) = none →
          str_to_key int_parse keyNames label = some (PKey.char ' '))) ∧
      (startsVk (innerStr label) = false →
        (innerStr label ∈ keyNames →
          str_to_key int_parse keyNames label = some (PKey.named (innerStr label))) ∧
        (innerStr label ∉ keyNames →
          ∀ c cs, (innerStr label).data = c :: cs →
            str_to_key int_parse keyNames label = some (PKey.char c)))) ∧
    (isBracketed label = false → ∀ c cs, label.data = c :: cs →
      str_to_key int_parse keyNames label = some (PKey.char c)) := by
  refine ⟨?_, ?_, ?_, ?_⟩
  · by_cases hempty : label = ""
    · simp [str_to_key, hempty]
    · by_cases hb : isBracketed label = true
      · by_cases hvk : startsVk (innerStr label) = true
        · cases hparse : int_parse (stripVk (innerStr label)) with
          | none => simp [str_to_key, hempty, hb, hvk, hparse]
          | some n => simp [str_to_key, hempty, hb, hvk, hparse]
        · by_cases hmem : innerStr label ∈ keyNames
          · simp [str_to_key, hempty, hb, hvk, hmem]
          · cases hinner : (innerStr label).data with
            | nil => exact absurd (bracketed_inner_empty label hb hinner) h
            | cons c cs => simp [str_to_key, hempty, hb, hvk, hmem, hinner]
      · have hb' : isBracketed label = false := by simpa using hb
        cases hdata : label.data with
        | nil =>
          obtain ⟨d⟩ := label
          exact absurd (congrArg String.mk (hdata : d = [])) hempty
        | cons c cs =>
          by_cases hone : label.data.length = 1
          · simp [str_to_key, hempty, hb', hone, hdata]
          · simp [str_to_key, hempty, hb', hone, hdata]
  · intro hempty
    simp [str_to_key, hempty]
  · intro hb
    have hempty : label ≠ "" := by
      intro hc
      rw [hc] at hb
      simp [isBracketed, headIsLt] at hb
    constructor
    · intro hvk
      constructor
      · intro n hparse
        simp [str_to_key, hempty, hb, hvk, hparse]
      · intro hparse
        simp [str_to_key, hempty, hb, hvk, hparse]
    · intro hvk
      constructor
      · intro hmem
        simp [str_to_key, hempty, hb, hvk, hmem]
      · intro hmem c cs hinner
        simp [str_to_key, hempty, hb, hvk, hmem, hinner]
  · intro hb c cs hdata
    have hempty : label ≠ "" := by
      intro hc
      rw [hc] at hdata
      simp at hdata
    by_cases hone : label.data.length = 1
    · simp [str_to_key, hempty, hb, hone, hdata]
    · simp [str_to_key, hempty, hb, hone, hdata]

/-- C6 (witness for the amended theorem): the policy applied at the
repository's own test vectors plus the unrecognized-name fallback, using
the sample platform integer parser. -/
theorem str_to_key_policy_witness :
    str_to_key sample_int_parse ["ctrl"] "" = some (PKey.char ' ') ∧
    str_to_key sample_int_parse ["ctrl"] "<ctrl>" = some (PKey.named "ctrl") ∧
    str_to_key sample_int_parse ["ctrl"] "<vk_65>" = some (PKey.vk 65) ∧
    str_to_key sample_int_parse ["ctrl"] "<vk_6x>" = some (PKey.char ' ') ∧
    str_to_key sample_int_parse ["ctrl"] "<foo>" = some (PKey.char 'f') ∧
    str_to_key sample_int_parse ["ctrl"] "bad" = some (PKey.char 'b') := by
  refine ⟨(str_to_key_policy sample_int_parse ["ctrl"] "" (by decide)).2.1 rfl,
    ?_, ?_, ?_, ?_, ?_⟩
  · exact (((str_to_key_policy sample_int_parse ["ctrl"] "<ctrl>" (by decide)).2.2.1
      (by decide)).2 (by decide)).1 (by decide)
  · exact (((str_to_key_policy sample_int_parse ["ctrl"] "<vk_65>" (by decide)).2.2.1
      (by decide)).1 (by decide)).1 65 (by decide)
  · exact (((str_to_key_policy sample_int_parse ["ctrl"] "<vk_6x>" (by decide)).2.2.1
      (by decide)).1 (by decide)).2 (by decide)
  · exact (((str_to_key_policy sample_int_parse ["ctrl"] "<foo>" (by decide)).2.2.1
      (by decide)).2 (by decide)).2 (by decide) 'f' "oo".data (by decide)
  · exact (str_to_key_policy sample_int_parse ["ctrl"] "bad" (by decide)).2.2.2
      (by decide) 'b' "ad".data (by decide)

/-- C8: chord matching is permutation-invariant — replacing every chord by
a permutation of itself leaves `pressed_matches_hotkey` unchanged, and a
chord list matches precisely when some chord's set of labels is a subset
of the pressed set. -/
theorem pressed_matches_hotkey_perm_invariant (pressed : Finset String)
    (chords chords2 : List (List String))
    (h : List.Forall₂ List.Perm chords chords2) :
    pressed_matches_hotkey pressed (combos_as_sets chords) =
      pressed_matches_hotkey pressed (combos_as_sets chords2) ∧
    (pressed_matches_hotkey pressed (combos_as_sets chords) = true ↔
      ∃ c ∈ chords, c.toFinset ⊆ pressed) := by
  constructor
  · have : combos_as_sets chords = combos_as_sets chords2 := by
      induction h with
      | nil => rfl
      | cons hperm _ ih =>
        simp only [combos_as_sets, List.map_cons] at ih ⊢
        rw [List.toFinset_eq_of_perm _ _ hperm, ih]
    rw [this]
  · simp [pressed_matches_hotkey, combos_as_sets, List.any_eq_true]

/-- C8 (witness): the spec's example — pressed set containing ctrl, alt
and r matches the reordered ignored chord. -/
theorem pressed_matches_hotkey_perm_invariant_witness :
    pressed_matches_hotkey {"<ctrl>", "<alt>", "r"}
        (combos_as_sets [["<ctrl>", "<alt>", "r"]]) =
      pressed_matches_hotkey {"<ctrl>", "<alt>", "r"}
        (combos_as_sets [["r", "<alt>", "<ctrl>"]]) ∧
    pressed_matches_hotkey {"<ctrl>", "<alt>", "r"}
        (combos_as_sets [["r", "<alt>", "<ctrl>"]]) = true := by
  refine ⟨(pressed_matches_hotkey_perm_invariant {"<ctrl>", "<alt>", "r"}
    [["<ctrl>", "<alt>", "r"]] [["r", "<alt>", "<ctrl>"]] (by decide)).1, by decide⟩

/-! ## models.py and recorder.py -/

/-- Payload of a recorded event: the tagged form of the kind-specific
Python payload dict built by the Recorder callbacks. -/
inductive Payload where
  | key (key : String)
  | click (x y : Int) (button : String) (action : String)
  | scroll (x y dx dy : Int)
  | move (x y : Int)
deriving DecidableEq, Repr

/-- Embeds `models.MacroEvent`. -/
structure MacroEvent where
  event_type : String
  payload : Payload
  delay_ms : Int
deriving DecidableEq, Repr

/-- Models Python `int(q)` on a real value: truncation toward zero. -/
def pyInt (q : ℚ) : Int :=
  if 0 ≤ q then ⌊q⌋ else ⌈q⌉

/-- State of `recorder.Recorder`: the running flag, the delay anchor
`_last_time`, the accumulated `_events`, the `_pressed` set and the
ignored `_hotkeys`.  Wall-clock timestamps are exact rationals. -/
structure RecorderState where
  running : Bool
  last_time : ℚ
  events : List MacroEvent
  pressed : Finset String
  hotkeys : List (Finset String)

/-- Embeds `Recorder.start` (the `Idle → Recording` transition): stores
the ignored chords as sets, clears events and the pressed set, and anchors
`_last_time` at the current time `t0`. -/
def recorder_start (t0 : ℚ) (ignored_hotkeys : List (List String)) : RecorderState :=
  { running := true
    last_time := t0
    events := []
    pressed := ∅
    hotkeys := combos_as_sets ignored_hotkeys }

/-- Embeds `Recorder._add_event`: delay 0 for the first event, otherwise
the truncated millisecond gap since `_last_time`, which is then advanced
to `now`. -/
def add_event (s : RecorderState) (now : ℚ) (etype : String) (p : Payload) : RecorderState :=
  let d : Int := if s.events = [] then 0 else pyInt ((now - s.last_time) * 1000)
  { s with last_time := now, events := s.events ++ [⟨etype, p, d⟩] }

/-- Embeds `Recorder._should_ignore`. -/
def should_ignore (s : RecorderState) (pressed_snapshot : Finset String) : Bool :=
  pressed_matches_hotkey pressed_snapshot s.hotkeys

/-- Embeds `Recorder._on_key_press`: add the label to the pressed set,
then record a `key_down` event unless the (updated) pressed set matches an
ignored chord.  The label argument is the canonical label `key_to_str`
produces for the native key. -/
def on_key_press (s : RecorderState) (now : ℚ) (label : String) : RecorderState :=
  if s.running = false then s
  else
    let s1 := { s with pressed := insert label s.pressed }
    if should_ignore s1 s1.pressed then s1
    else add_event s1 now "key_down" (Payload.key label)

/-- Embeds `Recorder._on_key_release`: the suppression check uses the
pressed set before removal; the label is discarded from the pressed set in
both branches, and a `key_up` event is appended only when not
suppressed. -/
def on_key_release (s : RecorderState) (now : ℚ) (label : String) : RecorderState :=
  if s.running = false then s
  else if should_ignore s s.pressed then { s with pressed := s.pressed.erase label }
  else
    let s1 := add_event s now "key_up" (Payload.key label)
    { s1 with pressed := s1.pressed.erase label }

/-- Embeds `Recorder._on_click`. -/
def on_click (s : RecorderState) (now : ℚ) (x y : Int) (button : String)
    (pressedFlag : Bool) : RecorderState :=
  if s.running = false then s
  else if should_ignore s s.pressed then s
  else add_event s now "mouse_click"
    (Payload.click x y button (if pressedFlag then "press" else "release"))

/-- Embeds `Recorder._on_scroll`. -/
def on_scroll (s : RecorderState) (now : ℚ) (x y dx dy : Int) : RecorderState :=
  if s.running = false then s
  else if should_ignore s s.pressed then s
  else add_event s now "mouse_scroll" (Payload.scroll x y dx dy)

/-- Embeds `Recorder._on_move`. -/
def on_move (s : RecorderState) (now : ℚ) (x y : Int) : RecorderState :=
  if s.running = false then s
  else if should_ignore s s.pressed then s
  else add_event s now "mouse_move" (Payload.move x y)

/-- One native callback delivered to the Recorder, with its canonical
label or pointer data. -/
inductive RecInput where
  | keyPress (label : String)
  | keyRelease (label : String)
  | click (x y : Int) (button : String) (pressed : Bool)
  | scroll (x y dx dy : Int)
  | move (x y : Int)
deriving DecidableEq, Repr

/-- Dispatches one timestamped callback to the matching Recorder
handler. -/
def rec_step (s : RecorderState) (now : ℚ) : RecInput → RecorderState
  | RecInput.keyPress label => on_key_press s now label
  | RecInput.keyRelease label => on_key_release s now label
  | RecInput.click x y b p => on_click s now x y b p
  | RecInput.scroll x y dx dy => on_scroll s now x y dx dy
  | RecInput.move x y => on_move s now x y

/-- Runs the Recorder over a trace of timestamped callbacks. -/
def rec_run (s : RecorderState) : List (ℚ × RecInput) → RecorderState
  | [] => s
  | (t, i) :: rest => rec_run (rec_step s t i) rest

/-- Ghost trace: the timestamps of exactly those callbacks that appended
an event (suppressed callbacks and no-ops leave no timestamp). -/
def rec_times (s : RecorderState) : List (ℚ × RecInput) → List ℚ
  | [] => []
  | (t, i) :: rest =>
    let s1 := rec_step s t i
    (if s.events.length < s1.events.length then [t] else []) ++ rec_times s1 rest

/-- Spec-side delays for recorded timestamps after an initial one: each is
the floor of the millisecond gap to the previous timestamp. -/
def delaysFrom (prev : ℚ) : List ℚ → List Int
  | [] => []
  | t :: rest => ⌊(t - prev) * 1000⌋ :: delaysFrom t rest

/-- Spec-side delay sequence for a list of recorded timestamps: the first
event has delay 0, every later one the floored millisecond gap to the
previous recorded timestamp. -/
def expectedDelays : List ℚ → List Int
  | [] => []
  | t :: rest => 0 :: delaysFrom t rest

/-- Helper: a non-decreasing chain stays non-decreasing after removing its
second element. -/
theorem chain_le_of_cons_cons {a b : ℚ} {l : List ℚ}
    (h : List.Chain' (· ≤ ·) (a :: b :: l)) : List.Chain' (· ≤ ·) (a :: l) := by
  cases l with
  | nil => simp
  | cons c l2 =>
    rw [List.chain'_cons] at h
    obtain ⟨hab, h2⟩ := h
    rw [List.chain'_cons] at h2
    rw [List.chain'_cons]
    exact ⟨le_trans hab h2.1, h2.2⟩

/-- Helper: the last element of a cons with fallback equals the last of
the tail with the head as fallback. -/
theorem getLastD_cons_eq (a prev : ℚ) (l : List ℚ) :
    (a :: l).getLast?.getD prev = l.getLast?.getD a := by
  induction l generalizing a prev with
  | nil => simp
  | cons b l2 ih =>
    rw [List.getLast?_cons_cons, ih b prev, ih b a]

/-- Helper: appending a timestamp appends the floored gap to the previous
timestamp (or to the anchor when the list was empty). -/
theorem delaysFrom_append (prev : ℚ) (l : List ℚ) (t : ℚ) :
    delaysFrom prev (l ++ [t]) = delaysFrom prev l ++ [⌊(t - l.getLastD prev) * 1000⌋] := by
  induction l generalizing prev with
  | nil => simp [delaysFrom]
  | cons a l ih =>
    simp only [List.cons_append, delaysFrom, List.append_eq]
    rw [ih a, List.getLastD_eq_getLast?, List.getLastD_eq_getLast?, getLastD_cons_eq]

/-- Helper: spec-side delays of a snoc — delay 0 when it is the first
recorded timestamp, else the floored gap to the last one. -/
theorem expectedDelays_append (ts : List ℚ) (t anchor : ℚ) :
    expectedDelays (ts ++ [t]) =
      expectedDelays ts ++
        [if ts = [] then 0 else ⌊(t - ts.getLastD anchor) * 1000⌋] := by
  cases ts with
  | nil => simp [expectedDelays, delaysFrom]
  | cons h r =>
    simp [expectedDelays, delaysFrom_append, List.getLastD_eq_getLast?,
      getLastD_cons_eq]

/-- Helper: each Recorder callback either leaves the event list and the
delay anchor untouched, or appends exactly one event carrying the
`_add_event` delay and advances the anchor to the callback time. -/
theorem rec_step_cases (s : RecorderState) (t : ℚ) (i : RecInput) :
    ((rec_step s t i).events = s.events ∧ (rec_step s t i).last_time = s.last_time) ∨
    ((rec_step s t i).last_time = t ∧ ∃ et p, (rec_step s t i).events =
      s.events ++ [⟨et, p, if s.events = [] then 0 else pyInt ((t - s.last_time) * 1000)⟩]) := by
  cases i <;>
    simp only [rec_step, on_key_press, on_key_release, on_click, on_scroll, on_move,
      add_event] <;>
    split_ifs <;>
    first
      | exact Or.inl ⟨rfl, rfl⟩
      | exact Or.inr ⟨rfl, _, _, rfl⟩

/-- Helper: the matching predicate holds exactly when some ignored chord
set is contained in the pressed set. -/
theorem pressed_matches_hotkey_iff (pressed : Finset String) (hotkeys : List (Finset String)) :
    pressed_matches_hotkey pressed hotkeys = true ↔ ∃ hk ∈ hotkeys, hk ⊆ pressed := by
  simp [pressed_matches_hotkey, List.any_eq_true]

/-- Helper: main invariant of the Recorder run — the accumulated delays
are the spec-side delays of the ghost timestamps of recorded events, and
all delays are non-negative, provided callback timestamps are
non-decreasing from the anchor. -/
theorem rec_run_delays (trace : List (ℚ × RecInput)) :
    ∀ (s : RecorderState) (ts : List ℚ),
    List.Chain' (· ≤ ·) (s.last_time :: trace.map Prod.fst) →
    s.events.map MacroEvent.delay_ms = expectedDelays ts →
    s.events.length = ts.length →
    ts.getLastD s.last_time = s.last_time →
    (∀ e ∈ s.events, 0 ≤ e.delay_ms) →
    (rec_run s trace).events.map MacroEvent.delay_ms =
        expectedDelays (ts ++ rec_times s trace) ∧
    (∀ e ∈ (rec_run s trace).events, 0 ≤ e.delay_ms) := by
  induction trace with
  | nil =>
    intro s ts _ hev _ _ hnn
    simpa [rec_run, rec_times] using ⟨hev, hnn⟩
  | cons ti rest ih =>
    obtain ⟨t, i⟩ := ti
    intro s ts hmono hev hlen hlast hnn
    have hrun : rec_run s ((t, i) :: rest) = rec_run (rec_step s t i) rest := rfl
    have htimes : rec_times s ((t, i) :: rest) =
        (if s.events.length < (rec_step s t i).events.length then [t] else []) ++
          rec_times (rec_step s t i) rest := rfl
    rcases rec_step_cases s t i with ⟨he, hl⟩ | ⟨hl, et, p, he⟩
    · have hcond : ¬ s.events.length < (rec_step s t i).events.length := by
        rw [he]
        omega
      rw [hrun, htimes, if_neg hcond, List.nil_append]
      exact ih (rec_step s t i) ts
        (by rw [hl]; exact chain_le_of_cons_cons (by simpa using hmono))
        (by rw [he]; exact hev)
        (by rw [he]; exact hlen)
        (by rw [hl]; exact hlast)
        (by rw [he]; exact hnn)
    · have hst : s.last_time ≤ t := by
        have := (List.chain'_cons.mp (by simpa using hmono)).1
        exact this
      have hq : (0 : ℚ) ≤ (t - s.last_time) * 1000 := by
        have : (0 : ℚ) ≤ t - s.last_time := by linarith
        positivity
      have hpy : pyInt ((t - s.last_time) * 1000) = ⌊(t - s.last_time) * 1000⌋ := by
        rw [pyInt, if_pos hq]
      have hcond : s.events.length < (rec_step s t i).events.length := by
        rw [he]
        simp
      rw [hrun, htimes, if_pos hcond]
      have hts : ts ++ t :: rec_times (rec_step s t i) rest =
          (ts ++ [t]) ++ rec_times (rec_step s t i) rest := by
        simp
      rw [List.singleton_append, hts]
      have hevnil : s.events = [] ↔ ts = [] := by
        constructor
        · intro hc
          rw [hc] at hlen
          exact (List.length_eq_zero.mp hlen.symm)
        · intro hc
          rw [hc] at hlen
          exact List.length_eq_zero.mp hlen
      refine ih (rec_step s t i) (ts ++ [t])
        (by rw [hl]; exact (by simpa using hmono : List.Chain' (· ≤ ·)
          (s.last_time :: t :: rest.map Prod.fst)).tail)
        ?_ ?_ ?_ ?_
      · rw [he, List.map_append, hev, expectedDelays_append ts t s.last_time, hlast]
        by_cases hnil : ts = []
        · rw [if_pos hnil]
          simp [hevnil.mpr hnil]
        · rw [if_neg hnil]
          have : ¬ s.events = [] := fun hc => hnil (hevnil.mp hc)
          simp [this, hpy]
      · rw [he]
        simp [hlen]
      · rw [hl]
        simp
      · intro e hmem
        rw [he] at hmem
        rcases List.mem_append.mp hmem with hmem | hmem
        · exact hnn e hmem
        · have : e = ⟨et, p, if s.events = [] then 0
              else pyInt ((t - s.last_time) * 1000)⟩ := by simpa using hmem
          rw [this]
          by_cases hnil : s.events = []
          · simp [hnil]
          · simp only [if_neg hnil, hpy]
            exact Int.floor_nonneg.mpr hq

/-- C1: in every recorded sequence the first event has `delay_ms = 0`, and
every later event's `delay_ms` is the floored millisecond gap between its
own native-callback timestamp and that of the previous recorded (not
suppressed) event, and is non-negative — `expectedDelays` over the ghost
timestamps `rec_times` of recorded events states exactly this, given a
non-decreasing wall clock. -/
theorem recorder_delay_invariant (t0 : ℚ) (ignored : List (List String))
    (trace : List (ℚ × RecInput))
    (hmono : List.Chain' (· ≤ ·) (t0 :: trace.map Prod.fst)) :
    (rec_run (recorder_start t0 ignored) trace).events.map MacroEvent.delay_ms =
      expectedDelays (rec_times (recorder_start t0 ignored) trace) ∧
    ∀ e ∈ (rec_run (recorder_start t0 ignored) trace).events, 0 ≤ e.delay_ms := by
  have h := rec_run_delays trace (recorder_start t0 ignored) []
    (by simpa [recorder_start] using hmono)
    (by simp [recorder_start, expectedDelays])
    (by simp [recorder_start])
    (by simp [recorder_start])
    (by simp [recorder_start])
  simpa using h

/-- C1 (witness): the spec's timing scenario with whole-second gaps —
press at 101 and release at 103 after starting at 100 give delays 0 and
2000 ms. -/
theorem recorder_delay_invariant_witness :
    List.Chain' (· ≤ ·) ((100 : ℚ) ::
      [((101 : ℚ), RecInput.keyPress "a"),
        ((103 : ℚ), RecInput.keyRelease "a")].map Prod.fst) ∧
    ((rec_run (recorder_start 100 [])
        [((101 : ℚ), RecInput.keyPress "a"), ((103 : ℚ), RecInput.keyRelease "a")]).events.map
          MacroEvent.delay_ms =
      expectedDelays (rec_times (recorder_start 100 [])
        [((101 : ℚ), RecInput.keyPress "a"), ((103 : ℚ), RecInput.keyRelease "a")]) ∧
      ∀ e ∈ (rec_run (recorder_start 100 [])
        [((101 : ℚ), RecInput.keyPress "a"),
          ((103 : ℚ), RecInput.keyRelease "a")]).events, 0 ≤ e.delay_ms) ∧
    (rec_run (recorder_start 100 [])
        [((101 : ℚ), RecInput.keyPress "a"), ((103 : ℚ), RecInput.keyRelease "a")]).events.map
          MacroEvent.delay_ms = [0, 2000] := by
  refine ⟨by norm_num [List.chain'_cons], recorder_delay_invariant 100 []
    [((101 : ℚ), RecInput.keyPress "a"), ((103 : ℚ), RecInput.keyRelease "a")]
    (by norm_num [List.chain'_cons]), ?_⟩
  simp only [rec_run, rec_step, on_key_press, on_key_release, recorder_start, should_ignore,
    pressed_matches_hotkey, add_event, combos_as_sets, List.map_nil, List.any_nil,
    Bool.false_eq_true, if_false, if_true, List.nil_append, List.map]
  norm_num [pyInt]

/-- C2: on a key release while recording, suppression is decided on the
pressed set before removal; when some ignored chord is contained in that
set no `key_up` event is appended but the label is still discarded,
otherwise a `key_up` event for the label is appended and the label is then
discarded. -/
theorem on_key_release_spec (s : RecorderState) (now : ℚ) (label : String)
    (h : s.running = true) :
    ((∃ hk ∈ s.hotkeys, hk ⊆ s.pressed) →
      (on_key_release s now label).events = s.events ∧
      (on_key_release s now label).pressed = s.pressed.erase label) ∧
    (¬ (∃ hk ∈ s.hotkeys, hk ⊆ s.pressed) →
      (∃ d : Int, (on_key_release s now label).events =
        s.events ++ [⟨"key_up", Payload.key label, d⟩]) ∧
      (on_key_release s now label).pressed = s.pressed.erase label) := by
  constructor
  · intro hsup
    have hig : should_ignore s s.pressed = true :=
      (pressed_matches_hotkey_iff s.pressed s.hotkeys).mpr hsup
    simp [on_key_release, h, hig]
  · intro hsup
    have hig : should_ignore s s.pressed = false := by
      rw [should_ignore, ← Bool.not_eq_true]
      exact fun hc => hsup ((pressed_matches_hotkey_iff s.pressed s.hotkeys).mp hc)
    simp [on_key_release, h, hig, add_event]

/-- C2 (witness): with pressed set containing ctrl and r and ignored chord
ctrl+r, releasing r is suppressed but still shrinks the pressed set; with
no ignored chord the release is recorded and the set still shrinks. -/
theorem on_key_release_spec_witness :
    ((on_key_release ⟨true, 0, [], {"<ctrl>", "r"}, [{"<ctrl>", "r"}]⟩ 5 "r").events = [] ∧
      (on_key_release ⟨true, 0, [], {"<ctrl>", "r"}, [{"<ctrl>", "r"}]⟩ 5 "r").pressed =
        ({"<ctrl>", "r"} : Finset String).erase "r") ∧
    ((∃ d : Int, (on_key_release ⟨true, 0, [], {"r"}, []⟩ 5 "r").events =
        [] ++ [⟨"key_up", Payload.key "r", d⟩]) ∧
      (on_key_release ⟨true, 0, [], {"r"}, []⟩ 5 "r").pressed =
        ({"r"} : Finset String).erase "r") := by
  refine ⟨(on_key_release_spec ⟨true, 0, [], {"<ctrl>", "r"}, [{"<ctrl>", "r"}]⟩ 5 "r"
    rfl).1 ?_, (on_key_release_spec ⟨true, 0, [], {"r"}, []⟩ 5 "r" rfl).2 ?_⟩
  · exact ⟨{"<ctrl>", "r"}, by simp, by decide⟩
  · simp

/-! ## player.py

The worker `Player._run` reads the shared `_stop_event` flag at the top of
each pass, before each event, and once more after the loop.  Reads are
numbered consecutively; the oracle `setAt` says from which read onward the
flag is observed set (the flag is only set by `stop()` and only cleared at
the very end of `_run`, so its observed values are monotone).  The loop is
given fuel; `none` means the fuel ran out before the loop exited. -/

/-- Embeds `models.Macro`. -/
structure Macro where
  name : String
  events : List MacroEvent
deriving DecidableEq, Repr

/-- Value of the i-th `_stop_event.is_set()` read under oracle `setAt`. -/
def isSet (setAt : Option Nat) (i : Nat) : Bool :=
  match setAt with
  | none => false
  | some k => decide (k ≤ i)

/-- Embeds the inner `for event in macro.events` loop of `Player._run`:
checks the flag before each event, applies the event (appending it to the
applied-trace) otherwise; returns the next read index, the applied trace,
and whether the loop broke on a set flag. -/
def runEvents (setAt : Option Nat) : List MacroEvent → Nat → List MacroEvent →
    (Nat × List MacroEvent × Bool)
  | [], c, acc => (c, acc, false)
  | e :: rest, c, acc =>
    if isSet setAt c then (c + 1, acc, true)
    else runEvents setAt rest (c + 1) (acc ++ [e])

/-- Embeds the `while repeats == 0 or count < repeats` loop of
`Player._run`, with fuel bounding the number of passes examined. -/
def playLoop (setAt : Option Nat) (events : List MacroEvent) (repeats : Int) :
    Nat → Int → Nat → List MacroEvent → Option (Nat × List MacroEvent × Bool)
  | 0, _, _, _ => none
  | fuel + 1, count, c, acc =>
    if repeats = 0 ∨ count < repeats then
      if isSet setAt c then some (c + 1, acc, true)
      else
        let r := runEvents setAt events (c + 1) acc
        (playLoop setAt events repeats fuel (count + 1) r.1 r.2.1).map
          (fun q => (q.1, q.2.1, r.2.2 || q.2.2))
    else some (c, acc, false)

/-- Observable outcome of `Player._run`: the events applied in order, the
completion-callback call, the `_stop_event` state on return, and whether
some flag read during the loop came back set. -/
structure PlayResult where
  applied : List MacroEvent
  completed : Bool
  stop_flag : Bool
  cancelled : Bool
deriving DecidableEq, Repr

/-- Embeds `Player._run`: run the loop, invoke the completion callback iff
the final flag read is clear, then clear the flag. -/
def player_run (setAt : Option Nat) (m : Macro) (repeats : Int) (fuel : Nat) :
    Option PlayResult :=
  (playLoop setAt m.events repeats fuel 0 0 []).map fun r =>
    { applied := r.2.1
      completed := !isSet setAt r.1
      stop_flag := false
      cancelled := r.2.2 }

/-- Helper: with no cancellation the inner loop applies every event in
order. -/
theorem runEvents_none (events : List MacroEvent) :
    ∀ (c : Nat) (acc : List MacroEvent),
    runEvents none events c acc = (c + events.length, acc ++ events, false) := by
  induction events with
  | nil => intro c acc; simp [runEvents]
  | cons e rest ih =>
    intro c acc
    rw [runEvents, if_neg (by simp [isSet]), ih (c + 1) (acc ++ [e])]
    simp only [List.length_cons, List.append_assoc, List.singleton_append]
    exact congrArg₂ Prod.mk (by omega) rfl

/-- Helper: with no cancellation and m passes remaining out of N, the loop
performs exactly m further full passes. -/
theorem playLoop_none (events : List MacroEvent) (N : Int) (hN : 0 < N) :
    ∀ (m : Nat) (count : Int), count = N - m → (m : Int) ≤ N →
    ∀ (c : Nat) (acc : List MacroEvent),
    playLoop none events N (m + 1) count c acc =
      some (c + m * (events.length + 1), acc ++ (List.replicate m events).join, false) := by
  intro m
  induction m with
  | zero =>
    intro count hcount _ c acc
    rw [playLoop, if_neg (by omega)]
    simp
  | succ m ih =>
    intro count hcount hm c acc
    rw [playLoop, if_pos (by omega)]
    simp only [isSet, Bool.false_eq_true, if_false, runEvents_none events (c + 1) acc]
    rw [ih (count + 1) (by omega) (by omega) (c + 1 + events.length) (acc ++ events)]
    simp only [Option.map_some', Bool.false_or]
    refine congrArg some (congrArg₂ Prod.mk (by ring)
      (congrArg₂ Prod.mk ?_ rfl))
    simp [List.replicate_succ, List.append_assoc]

/-- C3: with `repeats = N > 0` and cancellation never requested, the
replay loop performs exactly N full in-order passes over the event
sequence — the applied trace is N concatenated copies of the events — and
the completion callback is invoked (the code's single completion call
site, hence exactly once), with the flag left cleared. -/
theorem player_positive_repeats (m : Macro) (N : Int) (hN : 0 < N) :
    player_run none m N (N.toNat + 1) =
      some ⟨(List.replicate N.toNat m.events).join, true, false, false⟩ := by
  rw [player_run,
    playLoop_none m.events N hN N.toNat 0 (by omega) (by omega) 0 []]
  simp [isSet]

/-- C3 (witness): two repeats of a two-event macro apply the four events
in order and complete. -/
theorem player_positive_repeats_witness :
    (0 : Int) < 2 ∧
    player_run none ⟨"m", [⟨"key_down", Payload.key "a", 0⟩,
        ⟨"key_up", Payload.key "a", 7⟩]⟩ 2 ((2 : Int).toNat + 1) =
      some ⟨(List.replicate (2 : Int).toNat [⟨"key_down", Payload.key "a", 0⟩,
        ⟨"key_up", Payload.key "a", 7⟩]).join, true, false, false⟩ ∧
    (List.replicate (2 : Int).toNat [(⟨"key_down", Payload.key "a", 0⟩ : MacroEvent),
        ⟨"key_up", Payload.key "a", 7⟩]).join =
      [⟨"key_down", Payload.key "a", 0⟩, ⟨"key_up", Payload.key "a", 7⟩,
        ⟨"key_down", Payload.key "a", 0⟩, ⟨"key_up", Payload.key "a", 7⟩] :=
  ⟨by decide,
    player_positive_repeats ⟨"m", [⟨"key_down", Payload.key "a", 0⟩,
      ⟨"key_up", Payload.key "a", 7⟩]⟩ 2 (by decide),
    by decide⟩

/-- C10: with `repeats < 0` the while condition is false at once, so the
loop performs zero passes and applies no event, and with cancellation not
requested the completion callback is still invoked. -/
theorem player_negative_repeats (m : Macro) (N : Int) (hN : N < 0)
    (fuel : Nat) (hf : 0 < fuel) :
    player_run none m N fuel = some ⟨[], true, false, false⟩ := by
  obtain ⟨f, rfl⟩ : ∃ f, fuel = f + 1 := ⟨fuel - 1, by omega⟩
  rw [player_run, playLoop, if_neg (by omega)]
  simp [isSet]

/-- C10 (witness): repeats −1 applies nothing and completes. -/
theorem player_negative_repeats_witness :
    (-1 : Int) < 0 ∧ (0 : Nat) < 5 ∧
    player_run none ⟨"m", [⟨"mouse_move", Payload.move 3 4, 10⟩]⟩ (-1) 5 =
      some ⟨[], true, false, false⟩ :=
  ⟨by decide, by decide,
    player_negative_repeats ⟨"m", [⟨"mouse_move", Payload.move 3 4, 10⟩]⟩ (-1)
      (by decide) 5 (by decide)⟩

/-- Helper: flag reads are monotone — once a read comes back set, every
later read does. -/
theorem isSet_mono (setAt : Option Nat) {i j : Nat} (hij : i ≤ j)
    (h : isSet setAt i = true) : isSet setAt j = true := by
  cases setAt with
  | none => simpa [isSet] using h
  | some k =>
    simp only [isSet, decide_eq_true_eq] at h ⊢
    omega

/-- Helper: the inner loop only advances the read index, and when it
breaks, the read at its final index is set. -/
theorem runEvents_break (setAt : Option Nat) (events : List MacroEvent) :
    ∀ (c : Nat) (acc : List MacroEvent),
    c ≤ (runEvents setAt events c acc).1 ∧
    ((runEvents setAt events c acc).2.2 = true →
      isSet setAt (runEvents setAt events c acc).1 = true) := by
  induction events with
  | nil => intro c acc; simp [runEvents]
  | cons e rest ih =>
    intro c acc
    rw [runEvents]
    by_cases h : isSet setAt c = true
    · rw [if_pos h]
      exact ⟨by omega, fun _ => isSet_mono setAt (by omega) h⟩
    · rw [if_neg h]
      obtain ⟨h1, h2⟩ := ih (c + 1) (acc ++ [e])
      exact ⟨by omega, h2⟩

/-- Helper: when the outer loop exits with the break flag raised, the read
at the exit index is set. -/
theorem playLoop_break (setAt : Option Nat) (events : List MacroEvent) (repeats : Int) :
    ∀ (fuel : Nat) (count : Int) (c : Nat) (acc : List MacroEvent)
      (c2 : Nat) (acc2 : List MacroEvent) (br : Bool),
    playLoop setAt events repeats fuel count c acc = some (c2, acc2, br) →
    c ≤ c2 ∧ (br = true → isSet setAt c2 = true) := by
  intro fuel
  induction fuel with
  | zero => intro count c acc c2 acc2 br h; simp [playLoop] at h
  | succ fuel ih =>
    intro count c acc c2 acc2 br h
    rw [playLoop] at h
    by_cases hcond : repeats = 0 ∨ count < repeats
    · rw [if_pos hcond] at h
      by_cases hset : isSet setAt c = true
      · rw [if_pos hset] at h
        simp only [Option.some.injEq, Prod.mk.injEq] at h
        obtain ⟨hc, -, hbr⟩ := h
        subst hc
        exact ⟨by omega, fun _ => isSet_mono setAt (by omega) hset⟩
      · rw [if_neg hset] at h
        simp only at h
        obtain ⟨⟨c3, acc3, b3⟩, hpl, hmap⟩ := Option.map_eq_some'.mp h
        simp only [Prod.mk.injEq] at hmap
        obtain ⟨hc, -, hbr⟩ := hmap
        subst hc
        obtain ⟨hr1, hr2⟩ := runEvents_break setAt events (c + 1) acc
        obtain ⟨hi1, hi2⟩ := ih (count + 1) (runEvents setAt events (c + 1) acc).1
          (runEvents setAt events (c + 1) acc).2.1 c3 acc3 b3 hpl
        refine ⟨by omega, fun hb => ?_⟩
        rw [← hbr] at hb
        rcases Bool.or_eq_true_iff.mp hb with hb | hb
        · exact isSet_mono setAt hi1 (hr2 hb)
        · exact hi2 hb
    · rw [if_neg hcond] at h
      simp only [Option.some.injEq, Prod.mk.injEq] at h
      obtain ⟨hc, -, hbr⟩ := h
      subst hc
      exact ⟨le_refl c, fun hb => by rw [← hbr] at hb; cases hb⟩

/-- C4: whenever the replay loop exits (any oracle, macro, repeat count
and sufficient fuel), the cancellation flag is cleared on return in both
the cancelled and the natural-finish case, and if the loop exited after
observing the flag set — including a flag set before any event runs — the
completion callback is not invoked. -/
theorem player_cancellation (setAt : Option Nat) (m : Macro) (repeats : Int)
    (fuel : Nat) (res : PlayResult)
    (h : player_run setAt m repeats fuel = some res) :
    res.stop_flag = false ∧ (res.cancelled = true → res.completed = false) := by
  rw [player_run] at h
  obtain ⟨⟨c2, acc2, br⟩, hloop, hres⟩ := Option.map_eq_some'.mp h
  obtain ⟨-, hmono⟩ := playLoop_break setAt m.events repeats fuel 0 0 [] c2 acc2 br hloop
  rw [← hres]
  refine ⟨rfl, fun hb => ?_⟩
  simp only at hb ⊢
  rw [hmono hb]
  rfl

/-- C4 (witness): flag set before the first read — the single event is
never applied, completion is not invoked, and the flag is cleared. -/
theorem player_cancellation_witness :
    player_run (some 0) ⟨"m", [⟨"key_down", Payload.key "a", 0⟩]⟩ 1 2 =
      some ⟨[], false, false, true⟩ ∧
    (⟨[], false, false, true⟩ : PlayResult).stop_flag = false ∧
    ((⟨[], false, false, true⟩ : PlayResult).cancelled = true →
      (⟨[], false, false, true⟩ : PlayResult).completed = false) :=
  ⟨by decide,
    player_cancellation (some 0) ⟨"m", [⟨"key_down", Payload.key "a", 0⟩]⟩ 1 2
      ⟨[], false, false, true⟩ (by decide)⟩

/-! ## hotkeys.py -/

/-- Models the Python `dict` assignment `hotkey_map[combo_str] = thunk`:
replace in place when the key is present, else append. -/
def dictInsert {α : Type} (tbl : List (String × α)) (k : String) (v : α) :
    List (String × α) :=
  if tbl.any (fun p => decide (p.1 = k)) then
    tbl.map (fun p => if p.1 = k then (k, v) else p)
  else tbl ++ [(k, v)]

/-- Embeds the loop body of `HotkeyManager._restart`: skip combos shorter
than 2, normalize and format, skip unparseable chord strings, otherwise
bind a thunk that calls the dispatcher with the entry's own action
(captured by value, as the Python default-argument `action=action`
does). -/
def build_step {α : Type} (int_parse : String → Option Int)
    (str_lower : String → String) (dispatcher : String → α)
    (tbl : List (String × (Unit → α))) (ac : String × List String) :
    List (String × (Unit → α)) :=
  if ac.2.length < 2 then tbl
  else
    let combo_str := format_combo (normalize_combo int_parse str_lower ac.2)
    if is_parseable_hotkey combo_str = false then tbl
    else dictInsert tbl combo_str (fun _ => dispatcher ac.1)

/-- Embeds the chord-table construction of `HotkeyManager._restart` over
the action-to-combo mapping (a Python dict iterated in insertion
order). -/
def build_hotkey_map {α : Type} (int_parse : String → Option Int)
    (str_lower : String → String) (dispatcher : String → α)
    (mapping : List (String × List String)) : List (String × (Unit → α)) :=
  mapping.foldl (build_step int_parse str_lower dispatcher) []

/-- Spec-side selection: the entries whose combo has at least two labels
and whose normalized, formatted string is a legal chord. -/
def retained_entries (int_parse : String → Option Int)
    (str_lower : String → String) (mapping : List (String × List String)) :
    List (String × List String) :=
  mapping.filter (fun ac =>
    decide (2 ≤ ac.2.length) &&
      is_parseable_hotkey (format_combo (normalize_combo int_parse str_lower ac.2)))

/-- Spec-side shape of one chord-table entry: the formatted chord string
paired with a thunk dispatching that entry's own action. -/
def entry_of {α : Type} (int_parse : String → Option Int)
    (str_lower : String → String) (dispatcher : String → α)
    (ac : String × List String) : String × (Unit → α) :=
  (format_combo (normalize_combo int_parse str_lower ac.2), fun _ => dispatcher ac.1)

/-- Helper: inserting a key absent from the table appends. -/
theorem dictInsert_not_mem {α : Type} (tbl : List (String × α)) (k : String) (v : α)
    (h : ∀ p ∈ tbl, p.1 ≠ k) : dictInsert tbl k v = tbl ++ [(k, v)] := by
  rw [dictInsert, if_neg]
  simp only [List.any_eq_true, decide_eq_true_eq, not_exists, not_and]
  intro p hp
  simpa using h p hp

/-- Helper: folding the restart loop body from any table extends it with
exactly the retained entries, provided no chord string collides with an
existing key or another retained chord string. -/
theorem build_fold_spec {α : Type} (int_parse : String → Option Int)
    (str_lower : String → String) (dispatcher : String → α) :
    ∀ (mapping : List (String × List String)) (tbl : List (String × (Unit → α))),
    (tbl.map Prod.fst ++ (retained_entries int_parse str_lower mapping).map
      (fun ac => format_combo (normalize_combo int_parse str_lower ac.2))).Nodup →
    mapping.foldl (build_step int_parse str_lower dispatcher) tbl =
      tbl ++ (retained_entries int_parse str_lower mapping).map
        (entry_of int_parse str_lower dispatcher) := by
  intro mapping
  induction mapping with
  | nil => intro tbl _; simp [retained_entries]
  | cons ac rest ih =>
    intro tbl hnodup
    by_cases hkeep : 2 ≤ ac.2.length ∧
        is_parseable_hotkey (format_combo (normalize_combo int_parse str_lower ac.2)) = true
    · have hret : retained_entries int_parse str_lower (ac :: rest) =
          ac :: retained_entries int_parse str_lower rest := by
        simp [retained_entries, List.filter_cons, hkeep.1, hkeep.2]
      rw [hret] at hnodup
      have hstep : build_step int_parse str_lower dispatcher tbl ac =
          tbl ++ [(format_combo (normalize_combo int_parse str_lower ac.2),
            fun _ => dispatcher ac.1)] := by
        rw [build_step, if_neg (by omega), if_neg (by simp [hkeep.2])]
        refine dictInsert_not_mem tbl _ _ (fun p hp => ?_)
        have hmem : p.1 ∈ tbl.map Prod.fst := List.mem_map_of_mem Prod.fst hp
        have hdisj := (List.nodup_append.mp hnodup).2.2
        intro hc
        exact hdisj hmem (by rw [hc]; simp)
      rw [List.foldl_cons, hstep,
        ih (tbl ++ [(format_combo (normalize_combo int_parse str_lower ac.2),
          fun _ => dispatcher ac.1)]) ?_, hret]
      · simp [entry_of]
      · simp only [List.map_append, List.map_cons, List.map_nil] at hnodup ⊢
        simpa [List.append_assoc] using hnodup
    · have hret : retained_entries int_parse str_lower (ac :: rest) =
          retained_entries int_parse str_lower rest := by
        simp only [retained_entries]
        rw [List.filter_cons, if_neg]
        intro hc
        simp only [Bool.and_eq_true, decide_eq_true_eq] at hc
        exact hkeep hc
      have hstep : build_step int_parse str_lower dispatcher tbl ac = tbl := by
        rw [build_step]
        by_cases hlen : ac.2.length < 2
        · rw [if_pos hlen]
        · rw [if_neg hlen, if_pos]
          have : ¬ is_parseable_hotkey
              (format_combo (normalize_combo int_parse str_lower ac.2)) = true :=
            fun hc => hkeep ⟨by omega, hc⟩
          simpa using this
      rw [List.foldl_cons, hstep, ih tbl (by rw [hret] at hnodup; exact hnodup), hret]

/-- C5 (counterexample): the claim fails on a mapping that binds two
actions to the same chord: both entries satisfy the retention criterion
(length ≥ 2, legal chord string), but the Python dict assignment keeps a
single table entry whose thunk dispatches the later action, so the table
does not contain an entry for each retained mapping entry and the first
entry's own-action thunk is absent. -/
theorem build_hotkey_map_claim_counterexample :
    retained_entries sample_int_parse sample_lower
        [("a", ["<ctrl>", "r"]), ("b", ["<ctrl>", "r"])] =
      [("a", ["<ctrl>", "r"]), ("b", ["<ctrl>", "r"])] ∧
    (build_hotkey_map sample_int_parse sample_lower (fun a => a)
        [("a", ["<ctrl>", "r"]), ("b", ["<ctrl>", "r"])]).map
      (fun q => (q.1, q.2 ())) = [("<ctrl>+r", "b")] ∧
    (build_hotkey_map sample_int_parse sample_lower (fun a => a)
        [("a", ["<ctrl>", "r"]), ("b", ["<ctrl>", "r"])]).length ≠
      (retained_entries sample_int_parse sample_lower
        [("a", ["<ctrl>", "r"]), ("b", ["<ctrl>", "r"])]).length := by
  refine ⟨by decide, by decide, by decide⟩

/-- C5 (amended): for every platform table pair and every mapping whose
retained chord strings are pairwise distinct, the rebuilt chord table
holds exactly the entries whose combo has length ≥ 2 and whose
normalized, formatted string is a legal chord, in mapping order; each
entry's thunk invokes the dispatcher with that entry's own action
identifier (captured by value per entry), and too-short or illegal
entries are absent.  When two retained entries share a chord string, the
dict assignment instead keeps one entry dispatching the later action, as
the counterexample shows. -/
theorem build_hotkey_map_spec {α : Type} (int_parse : String → Option Int)
    (str_lower : String → String) (dispatcher : String → α)
    (mapping : List (String × List String))
    (hnodup : ((retained_entries int_parse str_lower mapping).map
      (fun ac => format_combo (normalize_combo int_parse str_lower ac.2))).Nodup) :
    build_hotkey_map int_parse str_lower dispatcher mapping =
      (retained_entries int_parse str_lower mapping).map
        (entry_of int_parse str_lower dispatcher) ∧
    ∀ q ∈ build_hotkey_map int_parse str_lower dispatcher mapping, ∃ ac ∈ mapping,
      2 ≤ ac.2.length ∧
      is_parseable_hotkey (format_combo (normalize_combo int_parse str_lower ac.2)) = true ∧
      q.1 = format_combo (normalize_combo int_parse str_lower ac.2) ∧
      q.2 () = dispatcher ac.1 := by
  have hmain : build_hotkey_map int_parse str_lower dispatcher mapping =
      (retained_entries int_parse str_lower mapping).map
        (entry_of int_parse str_lower dispatcher) := by
    rw [build_hotkey_map,
      build_fold_spec int_parse str_lower dispatcher mapping [] (by simpa using hnodup)]
    simp
  refine ⟨hmain, fun q hq => ?_⟩
  rw [hmain] at hq
  obtain ⟨ac, hac, hq⟩ := List.mem_map.mp hq
  rw [retained_entries, List.mem_filter] at hac
  obtain ⟨hmem, hcond⟩ := hac
  simp only [Bool.and_eq_true, decide_eq_true_eq] at hcond
  exact ⟨ac, hmem, hcond.1, hcond.2, by rw [← hq]; rfl, by rw [← hq]; rfl⟩

/-- C5 (witness for the amended theorem): the spec's example mapping,
under the sample platform tables, keeps only ctrl+r, whose thunk
dispatches the action named start. -/
theorem build_hotkey_map_spec_witness :
    (((retained_entries sample_int_parse sample_lower
        [("start", ["<ctrl>", "r"]), ("bad", ["x"]), ("invalid", ["<bad>", "xx"])]).map
      (fun ac => format_combo (normalize_combo sample_int_parse sample_lower ac.2))).Nodup) ∧
    (build_hotkey_map sample_int_parse sample_lower (fun a => a)
        [("start", ["<ctrl>", "r"]), ("bad", ["x"]), ("invalid", ["<bad>", "xx"])] =
      (retained_entries sample_int_parse sample_lower
        [("start", ["<ctrl>", "r"]), ("bad", ["x"]), ("invalid", ["<bad>", "xx"])]).map
        (entry_of sample_int_parse sample_lower (fun a => a)) ∧
      ∀ q ∈ build_hotkey_map sample_int_parse sample_lower (fun a => a)
        [("start", ["<ctrl>", "r"]), ("bad", ["x"]), ("invalid", ["<bad>", "xx"])],
        ∃ ac ∈ [("start", ["<ctrl>", "r"]), ("bad", ["x"]), ("invalid", ["<bad>", "xx"])],
        2 ≤ ac.2.length ∧
        is_parseable_hotkey
          (format_combo (normalize_combo sample_int_parse sample_lower ac.2)) = true ∧
        q.1 = format_combo (normalize_combo sample_int_parse sample_lower ac.2) ∧
        q.2 () = (fun a => a) ac.1) ∧
    ((build_hotkey_map sample_int_parse sample_lower (fun a => a)
        [("start", ["<ctrl>", "r"]), ("bad", ["x"]), ("invalid", ["<bad>", "xx"])]).map
      (fun q => (q.1, q.2 ()))) = [("<ctrl>+r", "start")] :=
  ⟨by decide,
    build_hotkey_map_spec sample_int_parse sample_lower (fun a => a)
      [("start", ["<ctrl>", "r"]), ("bad", ["x"]), ("invalid", ["<bad>", "xx"])]
      (by decide),
    by decide⟩

/-- One callback delivered to the temporary capture listener before the
timeout. -/
inductive CapEvent where
  | press (label : String)
  | release
deriving DecidableEq, Repr

/-- Embeds the listener phase of `capture_hotkey_blocking`: a press
appends its canonical label to the accumulator when non-empty and not yet
present; a release with at least `min_keys` accumulated labels signals
completion and stops the listener (no later callback is processed). -/
def capture_acc (min_keys : Nat) : List CapEvent → List String → List String
  | [], combo => combo
  | CapEvent.press label :: rest, combo =>
    capture_acc min_keys rest
      (if label ≠ "" ∧ label ∉ combo then combo ++ [label] else combo)
  | CapEvent.release :: rest, combo =>
    if min_keys ≤ combo.length then combo
    else capture_acc min_keys rest combo

/-- Embeds `capture_hotkey_blocking` as a whole: after the wait, return
the normalized accumulated combo when it reached `min_keys`, else
nothing-captured. -/
def capture_hotkey_blocking (int_parse : String → Option Int)
    (str_lower : String → String) (min_keys : Nat) (callbacks : List CapEvent) :
    Option (List String) :=
  let combo := capture_acc min_keys callbacks []
  if min_keys ≤ combo.length then
    some (normalize_combo int_parse str_lower combo)
  else none

/-- Labels of the press callbacks of a capture trace, in delivery
order. -/
def press_labels : List CapEvent → List String
  | [] => []
  | CapEvent.press l :: rest => l :: press_labels rest
  | CapEvent.release :: rest => press_labels rest

/-- Helper: the accumulator only grows by fresh non-empty pressed labels,
keeping them distinct and in press order. -/
theorem capture_acc_inv (min_keys : Nat) :
    ∀ (cbs : List CapEvent) (combo : List String),
    combo.Nodup → "" ∉ combo →
    (capture_acc min_keys cbs combo).Nodup ∧
    "" ∉ capture_acc min_keys cbs combo ∧
    ∃ ext, capture_acc min_keys cbs combo = combo ++ ext ∧
      List.Sublist ext (press_labels cbs) := by
  intro cbs
  induction cbs with
  | nil =>
    intro combo hnd hne
    exact ⟨hnd, hne, [], by simp [capture_acc], List.nil_sublist []⟩
  | cons cb rest ih =>
    intro combo hnd hne
    cases cb with
    | press l =>
      by_cases hcond : l ≠ "" ∧ l ∉ combo
      · have hstep : capture_acc min_keys (CapEvent.press l :: rest) combo =
            capture_acc min_keys rest (combo ++ [l]) := by
          rw [capture_acc, if_pos hcond]
        obtain ⟨h1, h2, ext, hext, hsub⟩ := ih (combo ++ [l])
          (by simp [List.nodup_append, hnd, hcond.2])
          (by simp [hne]; exact fun hc => hcond.1 hc.symm)
        refine ⟨by rw [hstep]; exact h1, by rw [hstep]; exact h2,
          l :: ext, by rw [hstep, hext]; simp, ?_⟩
        rw [press_labels]
        exact List.Sublist.cons₂ l hsub
      · have hstep : capture_acc min_keys (CapEvent.press l :: rest) combo =
            capture_acc min_keys rest combo := by
          rw [capture_acc, if_neg hcond]
        obtain ⟨h1, h2, ext, hext, hsub⟩ := ih combo hnd hne
        refine ⟨by rw [hstep]; exact h1, by rw [hstep]; exact h2,
          ext, by rw [hstep]; exact hext, ?_⟩
        rw [press_labels]
        exact List.Sublist.cons l hsub
    | release =>
      by_cases hdone : min_keys ≤ combo.length
      · have hstep : capture_acc min_keys (CapEvent.release :: rest) combo = combo := by
          rw [capture_acc, if_pos hdone]
        exact ⟨by rw [hstep]; exact hnd, by rw [hstep]; exact hne,
          [], by rw [hstep]; simp, List.nil_sublist _⟩
      · have hstep : capture_acc min_keys (CapEvent.release :: rest) combo =
            capture_acc min_keys rest combo := by
          rw [capture_acc, if_neg hdone]
        obtain ⟨h1, h2, ext, hext, hsub⟩ := ih combo hnd hne
        exact ⟨by rw [hstep]; exact h1, by rw [hstep]; exact h2,
          ext, by rw [hstep]; exact hext, by rw [press_labels]; exact hsub⟩

/-- C9: for every platform table pair, blocking chord capture returns
nothing-captured exactly when fewer than `min_keys` distinct labels
accumulated before the timeout, and otherwise returns the normalized
accumulated sequence; the accumulated labels are distinct, non-empty, and
appear in press order (a sublist of the pressed labels). -/
theorem capture_hotkey_blocking_spec (int_parse : String → Option Int)
    (str_lower : String → String) (min_keys : Nat) (callbacks : List CapEvent) :
    (capture_hotkey_blocking int_parse str_lower min_keys callbacks = none ↔
      (capture_acc min_keys callbacks []).length < min_keys) ∧
    (min_keys ≤ (capture_acc min_keys callbacks []).length →
      capture_hotkey_blocking int_parse str_lower min_keys callbacks =
        some (normalize_combo int_parse str_lower (capture_acc min_keys callbacks []))) ∧
    (capture_acc min_keys callbacks []).Nodup ∧
    "" ∉ capture_acc min_keys callbacks [] ∧
    List.Sublist (capture_acc min_keys callbacks []) (press_labels callbacks) := by
  obtain ⟨h1, h2, ext, hext, hsub⟩ :=
    capture_acc_inv min_keys callbacks [] (List.nodup_nil) (by simp)
  refine ⟨?_, ?_, h1, h2, ?_⟩
  · rw [capture_hotkey_blocking]
    by_cases hlen : min_keys ≤ (capture_acc min_keys callbacks []).length
    · rw [if_pos hlen]
      exact ⟨fun hc => absurd hc (by simp), fun hc => absurd hlen (by omega)⟩
    · rw [if_neg hlen]
      exact ⟨fun _ => by omega, fun _ => rfl⟩
  · intro hlen
    rw [capture_hotkey_blocking]
    simp [hlen]
  · rw [hext]
    simpa using hsub

/-- C9 (witness): one distinct label is too few for `min_keys = 2`, while
two distinct presses followed by a release are captured and normalized
under the sample platform tables. -/
theorem capture_hotkey_blocking_spec_witness :
    capture_hotkey_blocking sample_int_parse sample_lower 2
      [CapEvent.press "A", CapEvent.press "A", CapEvent.release] = none ∧
    capture_hotkey_blocking sample_int_parse sample_lower 2
        [CapEvent.press "<CTRL>", CapEvent.press "r", CapEvent.release] =
      some (normalize_combo sample_int_parse sample_lower
        (capture_acc 2 [CapEvent.press "<CTRL>", CapEvent.press "r",
          CapEvent.release] [])) ∧
    capture_hotkey_blocking sample_int_parse sample_lower 2
        [CapEvent.press "<CTRL>", CapEvent.press "r", CapEvent.release] =
      some ["<ctrl>", "r"] :=
  ⟨(capture_hotkey_blocking_spec sample_int_parse sample_lower 2
      [CapEvent.press "A", CapEvent.press "A", CapEvent.release]).1.mpr (by decide),
    (capture_hotkey_blocking_spec sample_int_parse sample_lower 2
      [CapEvent.press "<CTRL>", CapEvent.press "r", CapEvent.release]).2.1 (by decide),
    by decide⟩

end PyMacroRecorder
